import Mathlib

/-!
Verification development for the Charader prompt-supply subsystem.

The TypeScript sources are embedded shallowly:
* `shuffleArray` is the in-place Fisher–Yates loop of `App.tsx`, made explicit
  over the list of random draws (the k-th entry of `js` is the value
  `Math.floor(Math.random()*(i+1))` at loop counter `i = length - 1 - k`);
* the `GameScreen` component's state and handlers (`handleResult`, the
  replenishment effect, the one-second timer) become a state machine
  `RoundState`/`step`;
* `startGame` of the top-level `App` component becomes `startGame` over an
  explicit environment (catalog, pools, network, generator oracle).
-/

namespace Charader

/-- One swap of the Fisher–Yates loop body
`[shuffled[i], shuffled[j]] = [shuffled[j], shuffled[i]]`.
Out-of-range indices leave the list unchanged (they do not occur for the
index ranges produced by `Math.random`). -/
def listSwap {α : Type} (l : List α) (i j : Nat) : List α :=
  match l[i]?, l[j]? with
  | some x, some y => (l.set i y).set j x
  | _, _ => l

/-- The loop of `shuffleArray`: counter `i` runs downward while `i > 0`,
consuming one random draw `j` per iteration and swapping positions `i`
and `j`. -/
def fyLoop {α : Type} : List α → Nat → List Nat → List α
  | l, 0, _ => l
  | l, _ + 1, [] => l
  | l, i + 1, j :: js => fyLoop (listSwap l (i + 1) j) i js

/-- `shuffleArray` from `App.tsx`: copies the input (value semantics here) and
runs the Fisher–Yates loop from `i = length - 1` down to `1`; `js` is the
sequence of values `Math.floor(Math.random() * (i + 1))` drawn by the loop. -/
def shuffleArray {α : Type} (l : List α) (js : List Nat) : List α :=
  fyLoop l (l.length - 1) js

/-- The draw sequences the loop can actually produce at counter `i`:
one entry per iteration, the draw for counter `m` lying in `0..m`. -/
def ValidChoices : Nat → List Nat → Prop
  | 0, js => js = []
  | i + 1, js =>
    match js with
    | [] => False
    | j :: t => j ≤ i + 1 ∧ ValidChoices i t

/-- Enumeration of all valid draw sequences for loop counter `i`. -/
def enumChoices : Nat → List (List Nat)
  | 0 => [[]]
  | i + 1 => (List.range (i + 2)).flatMap (fun j => (enumChoices i).map (fun t => j :: t))

/-- A category as in `App.tsx`: identifier, display name, generation template
(the `prompt` field). -/
structure Category where
  id : String
  name : String
  prompt : String
deriving DecidableEq

/-- One entry of the results list: the judged prompt and the verdict.
`prompt` is an `Option` because the source reads
`gameState.availablePrompts[currentPromptIndex]`, which is `undefined`
(`none` here) when the index is past the end of the array. -/
structure GameResult where
  prompt : Option String
  correct : Bool
deriving DecidableEq

/-- A generation request issued by the replenishment effect: the `{count}`,
`{category}` and `{exclusions}` substitutions of `BASE_PROMPT`. -/
structure Request where
  count : Nat
  template : String
  exclusions : String
deriving DecidableEq

/-- The exclusion text built by `fetchMorePrompts`: empty when nothing has been
used yet, otherwise a fixed header followed by `usedPrompts.join("\n")`
(JavaScript's `join` renders an `undefined` entry as the empty string). -/
def exclusionTextOf (used : List (Option String)) : String :=
  if used.length > 0 then
    "\nDo not include any of these items:\n" ++
      String.intercalate "\n" (used.map (fun p => p.getD ""))
  else ""

/-- The live state of one round: the `GameScreen` component state
(`availablePrompts`, `usedPrompts`, `isLoadingMore`, `currentPromptIndex`,
`results`, `timeLeft`) plus the fixed `category` prop, the `ended` flag of the
surrounding `App` (`gameState === "end"`), and two observation logs --
`requests` records every generation call issued and `emitted` every
`onGameEnd` call with its argument. `outstanding` counts generation calls
issued but not yet completed. -/
structure RoundState where
  category : Category
  timeLeft : ℚ
  availablePrompts : List String
  usedPrompts : List (Option String)
  isLoadingMore : Bool
  currentPromptIndex : Nat
  results : List GameResult
  requests : List Request
  outstanding : Nat
  ended : Bool
  emitted : List (List GameResult)
deriving DecidableEq

/-- The events that drive a round: a player judgment, one run of the
low-water replenishment effect, completion or failure of an outstanding
generation call (with the response text and the shuffle draws), and one
one-second timer tick. -/
inductive Event where
  | judge (correct : Bool)
  | triggerCheck
  | fetchOk (content : String) (js : List Nat)
  | fetchFail
  | tick
deriving DecidableEq

/-- `handleResult` from `App.tsx`: record the current prompt in `results` and
`usedPrompts`; advance the cursor unless it is at (or past) the last available
prompt while a replenishment is still loading, in which case it holds. -/
def handleResult (s : RoundState) (correct : Bool) : RoundState :=
  let currentPrompt := s.availablePrompts[s.currentPromptIndex]?
  let s' := { s with results := s.results ++ [⟨currentPrompt, correct⟩],
                     usedPrompts := s.usedPrompts ++ [currentPrompt] }
  if s.availablePrompts.length ≤ s.currentPromptIndex + 1 ∧ s.isLoadingMore = true then s'
  else { s' with currentPromptIndex := s.currentPromptIndex + 1 }

/-- Start of `fetchMorePrompts`: set `isLoadingMore` and issue one generation
request for 60 items of the active category's template with the exclusion
text built from `usedPrompts`. -/
def startFetch (s : RoundState) : RoundState :=
  { s with isLoadingMore := true,
           requests := s.requests ++ [⟨60, s.category.prompt, exclusionTextOf s.usedPrompts⟩],
           outstanding := s.outstanding + 1 }

/-- The body of the replenishment `useEffect`: if at most 10 unconsumed
prompts remain (`availablePrompts.length - currentPromptIndex <= 10` over
JavaScript integers) and no fetch is loading, start one. -/
def checkFetchMore (s : RoundState) : RoundState :=
  if s.availablePrompts.length ≤ s.currentPromptIndex + 10 ∧ s.isLoadingMore = false
  then startFetch s else s

/-- A line of the generation response: strip a leading `^\d+\.\s*` numbering,
as the source's `line.replace(/^\d+\.\s*/, "")` does. -/
def stripLeadingNumber (line : String) : String :=
  let cs := line.toList
  let ds := cs.takeWhile Char.isDigit
  let rest := cs.drop ds.length
  if ds ≠ [] ∧ rest.head? = some '.' then
    String.mk ((rest.drop 1).dropWhile Char.isWhitespace)
  else line

/-- Parsing of a chat-completion response: split on newlines, strip leading
numbering, drop falsy (empty) lines; a `null` content yields `[]`. -/
def parseGenContent (content : Option String) : List String :=
  match content with
  | none => []
  | some s => ((s.splitOn "\n").map stripLeadingNumber).filter (fun l => l ≠ "")

/-- Successful completion of `fetchMorePrompts`: the parsed response is
shuffled and appended after all currently queued prompts; the loading flag
clears. -/
def fetchMoreSuccess (s : RoundState) (content : String) (js : List Nat) : RoundState :=
  { s with availablePrompts :=
             s.availablePrompts ++ shuffleArray (parseGenContent (some content)) js,
           isLoadingMore := false,
           outstanding := s.outstanding - 1 }

/-- Failed completion of `fetchMorePrompts` (the `catch` branch): log and
clear the loading flag; nothing else changes. -/
def fetchMoreFailure (s : RoundState) : RoundState :=
  { s with isLoadingMore := false, outstanding := s.outstanding - 1 }

/-- One tick of the `setInterval` clock: at `timeLeft <= 1` the interval is
cleared, `onGameEnd(results)` fires (recorded in `emitted`) and the round
ends; otherwise the clock decrements by one second. -/
def clockTick (s : RoundState) : RoundState :=
  if s.timeLeft ≤ 1 then
    { s with timeLeft := 0, ended := true, emitted := s.emitted ++ [s.results] }
  else { s with timeLeft := s.timeLeft - 1 }

/-- The single-control-thread step of a round. Once `ended` is set the
`GameScreen` component is unmounted: its interval is cleared, its buttons are
gone, and a late completion's `setGameState` is dropped by React -- every
event is the identity. -/
def step (s : RoundState) (e : Event) : RoundState :=
  if s.ended = true then s
  else
    match e with
    | .judge b => handleResult s b
    | .triggerCheck => checkFetchMore s
    | .fetchOk content js =>
        if s.isLoadingMore = true then fetchMoreSuccess s content js else s
    | .fetchFail => if s.isLoadingMore = true then fetchMoreFailure s else s
    | .tick => clockTick s

/-- Run a round from a state through a sequence of events. -/
def run (s : RoundState) (evs : List Event) : RoundState := evs.foldl step s

/-- The state of a freshly mounted `GameScreen` (after the 3-2-1-Go countdown):
the initial prompts from setup, an empty used set and results list, no fetch
loading, the clock at `duration * 60` seconds. -/
def initState (cat : Category) (duration : ℚ) (prompts : List String) : RoundState :=
  { category := cat
    timeLeft := duration * 60
    availablePrompts := prompts
    usedPrompts := []
    isLoadingMore := false
    currentPromptIndex := 0
    results := []
    requests := []
    outstanding := 0
    ended := false
    emitted := [] }

/-- Side conditions under which the supply invariants of the spec hold: a
judgment is submitted only while the cursor points at a prompt that is not
yet in the used set, and a replenishment batch is duplicate-free and disjoint
from everything already queued. All other events are unrestricted. -/
def admissibleEvent (s : RoundState) : Event → Prop
  | .judge _ =>
      s.currentPromptIndex < s.availablePrompts.length ∧
      ∀ p, s.availablePrompts[s.currentPromptIndex]? = some p →
        (some p) ∉ s.usedPrompts
  | .fetchOk content js =>
      (shuffleArray (parseGenContent (some content)) js).Nodup ∧
      ∀ p ∈ shuffleArray (parseGenContent (some content)) js,
        p ∉ s.availablePrompts
  | _ => True

/-- A trace of events each admissible in the state it is applied to. -/
inductive AdmissibleTrace : RoundState → List Event → Prop
  | nil (s : RoundState) : AdmissibleTrace s []
  | cons {s : RoundState} {e : Event} {evs : List Event} :
      admissibleEvent s e → AdmissibleTrace (step s e) evs →
      AdmissibleTrace s (e :: evs)

/-- The supply invariant: the queue is duplicate-free, the used set is exactly
the consumed prefix of the queue, results mirror the used set, the cursor is
at the used-count or (held) one behind it, and the number of outstanding
generation calls matches the loading flag. -/
def SupplyInv (s : RoundState) : Prop :=
  s.availablePrompts.Nodup ∧
  s.usedPrompts = (s.availablePrompts.take s.usedPrompts.length).map some ∧
  s.usedPrompts.length ≤ s.availablePrompts.length ∧
  s.results.map (fun r => r.prompt) = s.usedPrompts ∧
  (s.currentPromptIndex = s.usedPrompts.length ∨
    s.currentPromptIndex + 1 = s.usedPrompts.length) ∧
  s.outstanding = (if s.isLoadingMore then 1 else 0)

/-- A concrete category used by the witnesses below. -/
def witCat : Category := ⟨"animals", "Animals", "animals"⟩

/-- A reachable state violating the as-stated supply invariant: a one-prompt
round whose single prompt is judged twice because the cursor holds while the
initial replenishment is in flight. -/
def cexSupplyState : RoundState :=
  run (initState witCat 1 ["a"]) [.triggerCheck, .judge true, .judge false]

/-- A reachable exhausted state: the only prompt was judged with no fetch in
flight, so the cursor advanced to the end of the queue. -/
def exhaustedClickState : RoundState :=
  run (initState witCat 1 ["a"]) [.judge true]

/-- An ended state with a replenishment still in flight: the state of a round
right after the clock hit zero (tick at `timeLeft = 1`) while a fetch for more
prompts was still loading. -/
def lateFetchState : RoundState :=
  { category := witCat
    timeLeft := 0
    availablePrompts := ["a"]
    usedPrompts := [some "a"]
    isLoadingMore := true
    currentPromptIndex := 0
    results := [⟨some "a", true⟩]
    requests := [⟨60, "animals", ""⟩]
    outstanding := 1
    ended := true
    emitted := [[⟨some "a", true⟩]] }

/-- The setup environment of `startGame`: the external collaborators of the
spec. `allCategories` and `pools` stand for `ALL_CATEGORIES` and the canned
pools of `categories.ts` (not among the sources here); `online` is
`navigator.onLine`; `gen template count` is the chat-completion call (throw,
or a possibly-null content); `sampleChoices` and `finalShuffle` are the
random draws consumed by the per-category sampling and the final shuffle. -/
structure SetupEnv where
  allCategories : List Category
  pools : String → List String
  online : Bool
  gen : String → Nat → Except Unit (Option String)
  sampleChoices : Nat → List Nat
  finalShuffle : List Nat

/-- The per-category quota of `startGame`:
`Math.ceil(50 / categories.length)`, computed from the categories list it is
given (before any expansion). -/
def promptsPerCategory (categories : List Category) : Nat :=
  (50 + categories.length - 1) / categories.length

/-- Modelled from the spec: `getRandomOptionsForCategory` lives in
`categories.ts` (the Option Sampler over the Category Catalog), which is not
among the sources here. Per spec 4.1 it draws `count` items via a fair
shuffle of the category's full canned pool, truncated to `count`; a pool
smaller than `count` yields the whole shuffled pool. -/
def getRandomOptionsForCategory (pool : List String) (count : Nat) (js : List Nat) :
    List String :=
  (shuffleArray pool js).take count

/-- One iteration of the `startGame` category loop: the category's prompt
contribution, or a thrown error. A custom category offline contributes the
fixed informational prompt; online it calls the generator (whose throw
propagates) and parses the content; every other category samples its canned
pool. -/
def categoryPromptsFor (env : SetupEnv) (quota idx : Nat) (cat : Category) :
    Except Unit (List String) :=
  if cat.id = "custom" then
    if env.online = false then
      Except.ok ["Custom categories require internet connection"]
    else
      match env.gen cat.prompt quota with
      | .error e => .error e
      | .ok content => .ok (parseGenContent content)
  else
    .ok (getRandomOptionsForCategory (env.pools cat.id) quota (env.sampleChoices idx))

/-- The `startGame` loop over the categories: concatenates the contributions
in order and collects the prompt-to-category-name assignments in write order
(a later write overwrites an earlier one on lookup); the first thrown error
aborts the loop. -/
def startGameLoop (env : SetupEnv) (quota : Nat) :
    List Category → Nat → Except Unit (List String × List (String × String))
  | [], _ => .ok ([], [])
  | cat :: rest, idx =>
    match categoryPromptsFor env quota idx cat with
    | .error e => .error e
    | .ok cp =>
      match startGameLoop env quota rest (idx + 1) with
      | .error e => .error e
      | .ok (ps, mp) => .ok (cp ++ ps, cp.map (fun p => (p, cat.name)) ++ mp)

/-- The pure prompt concatenation of the loop, defined for the error-free
paths. -/
def pureLoopPrompts (env : SetupEnv) (quota : Nat) : List Category → Nat → List String
  | [], _ => []
  | cat :: rest, idx =>
    getRandomOptionsForCategory (env.pools cat.id) quota (env.sampleChoices idx) ++
      pureLoopPrompts env quota rest (idx + 1)

/-- The pure mapping concatenation of the loop, defined for the error-free
paths. -/
def pureLoopMap (env : SetupEnv) (quota : Nat) :
    List Category → Nat → List (String × String)
  | [], _ => []
  | cat :: rest, idx =>
    (getRandomOptionsForCategory (env.pools cat.id) quota (env.sampleChoices idx)).map
      (fun p => (p, cat.name)) ++ pureLoopMap env quota rest (idx + 1)

/-- Outcome of `startGame`: either the round starts (prompts shuffled,
mapping, config) or the thrown error was caught at the top level and the app
stays on the setup screen. -/
inductive SetupOutcome where
  | started (prompts : List String) (mapping : List (String × String))
      (duration : ℚ) (categories : List Category)
  | aborted
deriving DecidableEq

/-- `startGame` from `App.tsx`: the quota is computed from the given
categories; then, when the selection is exactly the single `misc` sentinel,
the categories are replaced by every catalog category except `custom` and
`misc`; the loop runs, its throw is caught (`aborted`), and on success the
concatenated prompts are shuffled and the game starts. -/
def startGame (env : SetupEnv) (duration : ℚ) (categories : List Category) :
    SetupOutcome :=
  let quota := promptsPerCategory categories
  let cats := if categories.length = 1 ∧ (categories.head?.map Category.id) = some "misc"
              then env.allCategories.filter (fun c => c.id != "custom" && c.id != "misc")
              else categories
  match startGameLoop env quota cats 0 with
  | .error _ => .aborted
  | .ok (ps, mp) => .started (shuffleArray ps env.finalShuffle) mp duration cats

/-- Number of initial prompts of an outcome, when the round started. -/
def setupPromptCount : SetupOutcome → Option Nat
  | .started ps _ _ _ => some ps.length
  | .aborted => none

/-- The spec's own quota formula (4.2): `ceil(targetTotal / number of sampled
categories)`. -/
def specQuota (targetTotal numSampled : Nat) : Nat :=
  (targetTotal + numSampled - 1) / numSampled

/-- The `misc` ("All Categories") sentinel of the catalog. -/
def miscCat : Category := ⟨"misc", "All Categories", "misc"⟩

/-- A custom (free-text) category as built by `handleStartGame`. -/
def customCat : Category := ⟨"custom", "Disney Characters", "Disney Characters"⟩

/-- A second canned category for the setup scenarios. -/
def moviesCat : Category := ⟨"movies", "Movies", "movies"⟩

/-- A 26-item duplicate-free canned pool. -/
def poolA : List String := (List.range 26).map (fun k => "a" ++ toString k)

/-- Environment for the setup scenarios: a catalog with the sentinel, two
canned categories and the custom one; `witCat`'s pool has 26 items and
`moviesCat`'s is empty; the network is up and every generator call throws. -/
def envErr : SetupEnv :=
  { allCategories := [miscCat, witCat, moviesCat, customCat]
    pools := fun id => if id = "animals" then poolA else []
    online := true
    gen := fun _ _ => .error ()
    sampleChoices := fun _ => []
    finalShuffle := [] }

/-- As `envErr`, but every generator call succeeds with a null content
(a malformed response that parses to no items). -/
def envOkNone : SetupEnv :=
  { allCategories := [miscCat, witCat, moviesCat, customCat]
    pools := fun id => if id = "animals" then poolA else []
    online := true
    gen := fun _ _ => .ok none
    sampleChoices := fun _ => []
    finalShuffle := [] }

/-- Key step for the swap permutation lemma: replacing the `j`-th element `y`
of `t` by `a` and consing `y` in front is a permutation of `a :: t`. -/
theorem swap_head_perm {α : Type} :
    ∀ (t : List α) (j : Nat) (a y : α), t[j]? = some y →
      (y :: t.set j a).Perm (a :: t) := by
  intro t
  induction t with
  | nil => intro j a y h; simp at h
  | cons b t' ih =>
    intro j a y h
    cases j with
    | zero =>
      obtain rfl : b = y := by simpa using h
      simpa [List.set] using List.Perm.swap a b t'
    | succ k =>
      simp only [List.getElem?_cons_succ] at h
      have h1 : (y :: b :: t'.set k a).Perm (b :: y :: t'.set k a) :=
        List.Perm.swap b y _
      have h2 : (b :: y :: t'.set k a).Perm (b :: a :: t') :=
        (ih k a y h).cons b
      have h3 : (b :: a :: t').Perm (a :: b :: t') := List.Perm.swap a b t'
      simpa [List.set] using (h1.trans h2).trans h3

theorem listSwap_cons_succ {α : Type} (a : α) (t : List α) (i j : Nat) :
    listSwap (a :: t) (i + 1) (j + 1) = a :: listSwap t i j := by
  unfold listSwap
  simp only [List.getElem?_cons_succ]
  cases hx : t[i]? with
  | none => rfl
  | some x =>
    cases hy : t[j]? with
    | none => rfl
    | some y => simp [List.set]

/-- A single Fisher–Yates swap permutes the list. -/
theorem listSwap_perm {α : Type} : ∀ (l : List α) (i j : Nat),
    (listSwap l i j).Perm l := by
  intro l
  induction l with
  | nil => intro i j; simp [listSwap]
  | cons a t ih =>
    intro i j
    cases i with
    | zero =>
      cases j with
      | zero => simp [listSwap, List.set]
      | succ k =>
        cases hy : t[k]? with
        | none => simp [listSwap, hy]
        | some y =>
          have hsw : listSwap (a :: t) 0 (k + 1) = y :: t.set k a := by
            simp [listSwap, hy, List.set]
          rw [hsw]
          exact swap_head_perm t k a y hy
    | succ m =>
      cases j with
      | zero =>
        cases hx : t[m]? with
        | none => simp [listSwap, hx]
        | some x =>
          have hsw : listSwap (a :: t) (m + 1) 0 = x :: t.set m a := by
            simp [listSwap, hx, List.set]
          rw [hsw]
          exact swap_head_perm t m a x hx
      | succ k =>
        rw [listSwap_cons_succ]
        exact (ih m k).cons a

/-- The whole Fisher–Yates loop permutes the list, whatever the draws are. -/
theorem fyLoop_perm {α : Type} : ∀ (i : Nat) (l : List α) (js : List Nat),
    (fyLoop l i js).Perm l := by
  intro i
  induction i with
  | zero => intro l js; simp [fyLoop]
  | succ m ih =>
    intro l js
    cases js with
    | nil => simp [fyLoop]
    | cons j t => exact (ih _ t).trans (listSwap_perm l (m + 1) j)

/-- C10. `shuffleArray` returns a permutation of its input: the same elements
with the same multiplicities, hence also the same length, for every input list
and every sequence of random draws. (The source first copies the input with
`[...array]` and mutates only the copy, which the value semantics of the
embedding renders exactly: the input list is a value and is left unchanged.) -/
theorem shuffleArray_perm {α : Type} (l : List α) (js : List Nat) :
    (shuffleArray l js).Perm l ∧ (shuffleArray l js).length = l.length := by
  refine ⟨fyLoop_perm _ l js, ?_⟩
  exact (fyLoop_perm _ l js).length_eq

/-- C1. Replenishment trigger and request shape: in any live state, when at
most 10 unconsumed prompts remain and no fetch is loading, one run of the
effect starts exactly one replenishment (the loading flag is set and exactly
one request is appended to the request log), for the single active category's
template, asking for 60 items, with the exclusion text omitted when the used
set is empty and otherwise equal to the used set joined by newlines under the
fixed header; while a fetch is in flight the effect is a no-op; and a
completing response is shuffled and appended after all currently queued
prompts. -/
theorem replenishment_trigger (s : RoundState) (content : String) (js : List Nat)
    (hend : s.ended = false) :
    (s.availablePrompts.length ≤ s.currentPromptIndex + 10 → s.isLoadingMore = false →
      (step s .triggerCheck).isLoadingMore = true ∧
      (step s .triggerCheck).requests =
        s.requests ++ [⟨60, s.category.prompt, exclusionTextOf s.usedPrompts⟩] ∧
      (s.usedPrompts = [] → exclusionTextOf s.usedPrompts = "") ∧
      (s.usedPrompts ≠ [] → exclusionTextOf s.usedPrompts =
        "\nDo not include any of these items:\n" ++
          String.intercalate "\n" (s.usedPrompts.map (fun p => p.getD "")))) ∧
    (s.isLoadingMore = true → step s .triggerCheck = s) ∧
    (s.isLoadingMore = true →
      (step s (.fetchOk content js)).availablePrompts =
        s.availablePrompts ++ shuffleArray (parseGenContent (some content)) js) := by
  refine ⟨?_, ?_, ?_⟩
  · intro hlow hnl
    refine ⟨?_, ?_, ?_, ?_⟩
    · simp [step, hend, checkFetchMore, hlow, hnl, startFetch]
    · simp [step, hend, checkFetchMore, hlow, hnl, startFetch]
    · intro hu; simp [exclusionTextOf, hu]
    · intro hu
      have : 0 < s.usedPrompts.length := List.length_pos.mpr hu
      simp [exclusionTextOf, this]
  · intro hl
    simp [step, hend, checkFetchMore, hl]
  · intro hl
    simp [step, hend, hl, fetchMoreSuccess]

/-- Witness for C1 at a concrete low-water state. -/
theorem replenishment_trigger_witness :
    (initState witCat 1 ["a", "b"]).ended = false ∧
    (initState witCat 1 ["a", "b"]).availablePrompts.length ≤
      (initState witCat 1 ["a", "b"]).currentPromptIndex + 10 ∧
    (initState witCat 1 ["a", "b"]).isLoadingMore = false ∧
    (step (initState witCat 1 ["a", "b"]) .triggerCheck).isLoadingMore = true :=
  ⟨rfl, by decide, rfl,
    (((replenishment_trigger (initState witCat 1 ["a", "b"]) "x" [] rfl).1
      (by decide) rfl)).1⟩

/-- C3. If the player judges the very last available prompt while a
replenishment is in flight, the cursor holds (no out-of-bounds index), and
once the response lands the next judgment proceeds normally: it appends a
result and advances the cursor. -/
theorem last_prompt_hold (s : RoundState) (b b' : Bool) (content : String) (js : List Nat)
    (hend : s.ended = false)
    (hlast : s.currentPromptIndex + 1 = s.availablePrompts.length)
    (hload : s.isLoadingMore = true) :
    (step s (.judge b)).currentPromptIndex = s.currentPromptIndex ∧
    (step s (.judge b)).currentPromptIndex <
      (step s (.judge b)).availablePrompts.length ∧
    (step (step s (.judge b)) (.fetchOk content js)).isLoadingMore = false ∧
    (step (step (step s (.judge b)) (.fetchOk content js)) (.judge b')).currentPromptIndex
      = s.currentPromptIndex + 1 ∧
    (step (step (step s (.judge b)) (.fetchOk content js)) (.judge b')).results.length
      = s.results.length + 2 := by
  have hle : s.availablePrompts.length ≤ s.currentPromptIndex + 1 := le_of_eq hlast.symm
  refine ⟨?_, ?_, ?_, ?_, ?_⟩
  · simp [step, hend, handleResult, hle, hload]
  · have h1 : (step s (.judge b)).currentPromptIndex = s.currentPromptIndex := by
      simp [step, hend, handleResult, hle, hload]
    have h2 : (step s (.judge b)).availablePrompts = s.availablePrompts := by
      simp [step, hend, handleResult, hle, hload]
    rw [h1, h2]
    omega
  · simp [step, hend, handleResult, hle, hload, fetchMoreSuccess]
  · simp [step, hend, handleResult, hle, hload, fetchMoreSuccess]
  · simp [step, hend, handleResult, hle, hload, fetchMoreSuccess]

/-- Witness for C3: a one-prompt round whose initial replenishment is in
flight. -/
theorem last_prompt_hold_witness :
    (step (initState witCat 1 ["a"]) .triggerCheck).ended = false ∧
    (step (initState witCat 1 ["a"]) .triggerCheck).currentPromptIndex + 1 =
      (step (initState witCat 1 ["a"]) .triggerCheck).availablePrompts.length ∧
    (step (initState witCat 1 ["a"]) .triggerCheck).isLoadingMore = true ∧
    (step (step (initState witCat 1 ["a"]) .triggerCheck) (.judge true)).currentPromptIndex =
      (step (initState witCat 1 ["a"]) .triggerCheck).currentPromptIndex :=
  ⟨by decide, by decide, by decide,
    (last_prompt_hold (step (initState witCat 1 ["a"]) .triggerCheck) true false "b\nc" [1]
      (by decide) (by decide) (by decide)).1⟩

/-- C2 counterexample. The as-stated invariant fails on a reachable state: in
a one-prompt round the low-water effect fires at once, so judging the only
prompt holds the cursor (in-flight hold) and a second judgment records the
same prompt again -- `"a"` then appears twice in `usedPrompts` and twice in
the results, with no generator response involved at all. -/
theorem supply_invariant_cex :
    cexSupplyState.usedPrompts = [some "a", some "a"] ∧
    cexSupplyState.usedPrompts.count (some "a") ≠ 1 ∧
    cexSupplyState.results.map (fun r => r.prompt) = [some "a", some "a"] := by
  refine ⟨by decide, by decide, by decide⟩

/-- C4 (code behavior at the failing input). After the only prompt of a round
is judged, the cursor sits at the end of the queue (the Exhausted state whose
UI shows the loading spinner); the judgment buttons are still mounted, and a
further judgment appends a Judgment Result with an `undefined` prompt and
pushes `undefined` into `usedPrompts`, instead of being rejected. -/
theorem judge_while_exhausted_bug :
    exhaustedClickState.currentPromptIndex =
      exhaustedClickState.availablePrompts.length ∧
    (step exhaustedClickState (.judge false)).results =
      exhaustedClickState.results ++ [⟨none, false⟩] ∧
    (step exhaustedClickState (.judge false)).usedPrompts =
      exhaustedClickState.usedPrompts ++ [none] := by
  refine ⟨by decide, by decide, by decide⟩

/-- C8. Once the round has ended, every later event -- in particular the
completion of a replenishment that was in flight when the clock hit zero --
leaves the state unchanged: the finalized queue, results and the emitted
list are never mutated. (On end the `GameScreen` unmounts: its interval is
cleared and React drops the late `setGameState` of the orphaned promise;
the results were already snapshotted into `App` state by `endGame`.) -/
theorem late_replenishment_discarded (s : RoundState) (h : s.ended = true)
    (evs : List Event) : run s evs = s := by
  induction evs with
  | nil => rfl
  | cons e t ih =>
    have hst : step s e = s := by simp [step, h]
    simpa [run, List.foldl_cons, hst] using ih

/-- Witness for C8: the round ends (clock at zero) while the initial
replenishment is in flight; its later completion changes nothing. -/
theorem late_replenishment_discarded_witness :
    lateFetchState.ended = true ∧
    lateFetchState.isLoadingMore = true ∧
    run lateFetchState [.fetchOk "b\nc" [0]] = lateFetchState :=
  ⟨rfl, rfl,
    late_replenishment_discarded lateFetchState rfl [.fetchOk "b\nc" [0]]⟩

theorem run_append (s : RoundState) (evs : List Event) (e : Event) :
    run s (evs ++ [e]) = step (run s evs) e := by
  simp [run, List.foldl_append]

/-- Non-tick events never touch the clock, the ended flag or the emission
log. -/
theorem step_nontick_clock (s : RoundState) (e : Event) (he : e ≠ .tick) :
    (step s e).ended = s.ended ∧ (step s e).timeLeft = s.timeLeft ∧
    (step s e).emitted = s.emitted := by
  by_cases hend : s.ended = true
  · simp [step, hend]
  · have hend' : s.ended = false := by simpa using hend
    cases e with
    | judge b =>
      refine ⟨?_, ?_, ?_⟩ <;> simp [step, hend', handleResult, apply_ite]
    | triggerCheck =>
      refine ⟨?_, ?_, ?_⟩ <;> simp [step, hend', checkFetchMore, startFetch, apply_ite]
    | fetchOk content js =>
      refine ⟨?_, ?_, ?_⟩ <;> simp [step, hend', fetchMoreSuccess, apply_ite]
    | fetchFail =>
      refine ⟨?_, ?_, ?_⟩ <;> simp [step, hend', fetchMoreFailure, apply_ite]
    | tick => exact absurd rfl he

/-- A tick never touches the results list. -/
theorem step_tick_results (s : RoundState) :
    (step s .tick).results = s.results := by
  by_cases hend : s.ended = true
  · simp [step, hend]
  · have hend' : s.ended = false := by simpa using hend
    simp [step, hend', clockTick, apply_ite]

/-- C5. The `Running` clock: starting from `duration * 60 = n > 0` seconds,
along any event sequence the clock has counted down one second per tick --
after `k < n` ticks the round is still running with `n - k` seconds left and
nothing emitted; at the `n`-th tick the round ends, the clock reads zero, and
the accumulated results list (built in consumption order by `handleResult`'s
appends) has been emitted exactly once. -/
theorem running_clock (cat : Category) (d : ℚ) (ps : List String) (n : Nat)
    (hd : d * 60 = (n : ℚ)) (hn : 0 < n) (evs : List Event) :
    (evs.count Event.tick < n →
      (run (initState cat d ps) evs).ended = false ∧
      (run (initState cat d ps) evs).timeLeft = ((n - evs.count Event.tick : Nat) : ℚ) ∧
      (run (initState cat d ps) evs).emitted = []) ∧
    (n ≤ evs.count Event.tick →
      (run (initState cat d ps) evs).ended = true ∧
      (run (initState cat d ps) evs).timeLeft = 0 ∧
      (run (initState cat d ps) evs).emitted = [(run (initState cat d ps) evs).results]) := by
  induction evs using List.reverseRecOn with
  | nil =>
    refine ⟨?_, ?_⟩
    · intro _
      refine ⟨rfl, ?_, rfl⟩
      simpa [run, initState] using hd
    · intro h
      simp at h
      omega
  | append_singleton evs e ih =>
    rw [run_append]
    by_cases he : e = Event.tick
    · subst he
      have hcount : (evs ++ [Event.tick]).count Event.tick = evs.count Event.tick + 1 := by
        simp
      rw [hcount]
      set s := run (initState cat d ps) evs with hs
      by_cases h1 : evs.count Event.tick < n
      · obtain ⟨hE, hT, hM⟩ := ih.1 h1
        by_cases h2 : evs.count Event.tick + 1 < n
        · -- still running after this tick
          have hgt : ¬ s.timeLeft ≤ 1 := by
            rw [hT]
            have h3 : 2 ≤ n - evs.count Event.tick := by omega
            have : ((2 : Nat) : ℚ) ≤ ((n - evs.count Event.tick : Nat) : ℚ) :=
              Nat.cast_le.mpr h3
            push_cast at this ⊢
            linarith
          refine ⟨fun _ => ⟨?_, ?_, ?_⟩, fun hc => absurd hc (by omega)⟩
          · simp [step, hE, clockTick, hgt]
          · have : (step s Event.tick).timeLeft = s.timeLeft - 1 := by
              simp [step, hE, clockTick, hgt]
            rw [this, hT]
            have h4 : n - evs.count Event.tick = (n - (evs.count Event.tick + 1)) + 1 := by
              omega
            rw [h4]
            push_cast
            ring
          · have : (step s Event.tick).emitted = s.emitted := by
              simp [step, hE, clockTick, hgt]
            rw [this, hM]
        · -- this tick ends the round
          have hone : evs.count Event.tick + 1 = n := by omega
          have htl : s.timeLeft = 1 := by
            rw [hT]
            have : n - evs.count Event.tick = 1 := by omega
            simp [this]
          have hle : s.timeLeft ≤ 1 := le_of_eq htl
          refine ⟨fun hc => absurd hc (by omega), fun _ => ⟨?_, ?_, ?_⟩⟩
          · simp [step, hE, clockTick, hle]
          · simp [step, hE, clockTick, hle]
          · have h5 : (step s Event.tick).emitted = s.emitted ++ [s.results] := by
              simp [step, hE, clockTick, hle]
            have h6 : (step s Event.tick).results = s.results := step_tick_results s
            rw [h5, h6, hM]
            simp
      · -- the round had already ended
        obtain ⟨hE, hT, hM⟩ := ih.2 (by omega)
        have hid : step s Event.tick = s := by simp [step, hE]
        rw [hid]
        exact ⟨fun hc => absurd hc (by omega), fun _ => ⟨hE, hT, hM⟩⟩
    · have hzero : List.count Event.tick [e] = 0 :=
        List.count_eq_zero.mpr (by
          simp only [List.mem_singleton]
          exact fun h => he h.symm)
      have hcount : (evs ++ [e]).count Event.tick = evs.count Event.tick := by
        rw [List.count_append, hzero]
        omega
      rw [hcount]
      set s := run (initState cat d ps) evs with hs
      obtain ⟨hE, hT, hM⟩ := step_nontick_clock s e he
      constructor
      · intro h1
        obtain ⟨e1, t1, m1⟩ := ih.1 h1
        exact ⟨hE.trans e1, hT.trans t1, hM.trans m1⟩
      · intro h2
        obtain ⟨e1, t1, m1⟩ := ih.2 h2
        refine ⟨hE.trans e1, hT.trans t1, ?_⟩
        have hres : (step s e).results = s.results := by
          have hend : s.ended = true := e1
          simp [step, hend]
        rw [hM, m1, hres]

/-- Witness for C5: a 30-second round (duration one half minute) ends after
exactly 30 ticks. -/
theorem running_clock_witness :
    ((1 : ℚ)/2 * 60 = ((30 : Nat) : ℚ)) ∧
    (run (initState witCat ((1 : ℚ)/2) ["a"]) (List.replicate 30 Event.tick)).ended = true :=
  ⟨by norm_num,
    ((running_clock witCat ((1 : ℚ)/2) ["a"] 30 (by norm_num) (by norm_num)
      (List.replicate 30 Event.tick)).2 (by simp)).1⟩

theorem supplyInv_init (cat : Category) (d : ℚ) (ps : List String) (hnd : ps.Nodup) :
    SupplyInv (initState cat d ps) := by
  refine ⟨hnd, by simp [initState], by simp [initState], by simp [initState],
    Or.inl (by simp [initState]), by simp [initState]⟩

/-- Preservation of the supply invariant by one admissible event. -/
theorem supplyInv_step (s : RoundState) (e : Event)
    (hInv : SupplyInv s) (hA : admissibleEvent s e) : SupplyInv (step s e) := by
  obtain ⟨hnd, hused, hlen, hres, hcur, hout⟩ := hInv
  by_cases hend : s.ended = true
  · rw [show step s e = s from by simp [step, hend]]
    exact ⟨hnd, hused, hlen, hres, hcur, hout⟩
  · have hend' : s.ended = false := by simpa using hend
    cases e with
    | tick =>
      have hav : (step s .tick).availablePrompts = s.availablePrompts := by
        simp [step, hend', clockTick, apply_ite]
      have hus : (step s .tick).usedPrompts = s.usedPrompts := by
        simp [step, hend', clockTick, apply_ite]
      have hrs : (step s .tick).results = s.results := by
        simp [step, hend', clockTick, apply_ite]
      have hix : (step s .tick).currentPromptIndex = s.currentPromptIndex := by
        simp [step, hend', clockTick, apply_ite]
      have hlo : (step s .tick).isLoadingMore = s.isLoadingMore := by
        simp [step, hend', clockTick, apply_ite]
      have hou : (step s .tick).outstanding = s.outstanding := by
        simp [step, hend', clockTick, apply_ite]
      refine ⟨?_, ?_, ?_, ?_, ?_, ?_⟩
      · rw [hav]; exact hnd
      · rw [hus, hav]; exact hused
      · rw [hus, hav]; exact hlen
      · rw [hrs, hus]; exact hres
      · rw [hix, hus]; exact hcur
      · rw [hou, hlo]; exact hout
    | triggerCheck =>
      by_cases hc : s.availablePrompts.length ≤ s.currentPromptIndex + 10 ∧
          s.isLoadingMore = false
      · have hstep : step s .triggerCheck = startFetch s := by
          simp [step, hend', checkFetchMore, hc]
        rw [hstep]
        refine ⟨hnd, hused, hlen, hres, hcur, ?_⟩
        simp [startFetch, hout, hc.2]
      · have hstep : step s .triggerCheck = s := by
          simp [step, hend', checkFetchMore, hc]
        rw [hstep]
        exact ⟨hnd, hused, hlen, hres, hcur, hout⟩
    | fetchFail =>
      by_cases hl : s.isLoadingMore = true
      · have hstep : step s .fetchFail = fetchMoreFailure s := by simp [step, hend', hl]
        rw [hstep]
        refine ⟨hnd, hused, hlen, hres, hcur, ?_⟩
        simp [fetchMoreFailure, hout, hl]
      · have hstep : step s .fetchFail = s := by simp [step, hend', hl]
        rw [hstep]
        exact ⟨hnd, hused, hlen, hres, hcur, hout⟩
    | fetchOk content js =>
      by_cases hl : s.isLoadingMore = true
      · have hstep : step s (.fetchOk content js) = fetchMoreSuccess s content js := by
          simp [step, hend', hl]
        rw [hstep]
        obtain ⟨hbn, hbd⟩ := hA
        refine ⟨?_, ?_, ?_, ?_, ?_, ?_⟩
        · exact List.nodup_append.mpr ⟨hnd, hbn, fun x hx hxb => hbd x hxb hx⟩
        · show s.usedPrompts =
            ((s.availablePrompts ++ shuffleArray (parseGenContent (some content)) js).take
              s.usedPrompts.length).map some
          rw [List.take_append_of_le_length hlen]
          exact hused
        · simp only [fetchMoreSuccess, List.length_append]
          omega
        · exact hres
        · exact hcur
        · simp [fetchMoreSuccess, hout, hl]
      · have hstep : step s (.fetchOk content js) = s := by simp [step, hend', hl]
        rw [hstep]
        exact ⟨hnd, hused, hlen, hres, hcur, hout⟩
    | judge b =>
      obtain ⟨hlt, hfresh⟩ := hA
      have hp : s.availablePrompts[s.currentPromptIndex]? =
          some s.availablePrompts[s.currentPromptIndex] := List.getElem?_eq_getElem hlt
      have hk : s.currentPromptIndex = s.usedPrompts.length := by
        rcases hcur with h | h
        · exact h
        · exfalso
          have hklt : s.currentPromptIndex <
              (s.availablePrompts.take s.usedPrompts.length).length := by
            rw [List.length_take]
            have h2 : s.currentPromptIndex < s.usedPrompts.length := by omega
            exact lt_min h2 hlt
          have hm : s.availablePrompts[s.currentPromptIndex] ∈
              s.availablePrompts.take s.usedPrompts.length := by
            have hgt := List.getElem_take (L := s.availablePrompts)
              (j := s.usedPrompts.length) (i := s.currentPromptIndex) (h := hklt)
            rw [← hgt]
            exact List.getElem_mem hklt
          exact hfresh _ hp (by rw [hused]; exact List.mem_map_of_mem some hm)
      have hp' : s.availablePrompts[s.usedPrompts.length]? =
          some s.availablePrompts[s.currentPromptIndex] := by rw [← hk]; exact hp
      have htake : s.availablePrompts.take (s.usedPrompts.length + 1) =
          s.availablePrompts.take s.usedPrompts.length ++
            [s.availablePrompts[s.currentPromptIndex]] := by
        rw [List.take_succ, hp']
        rfl
      have hstep_av : (step s (.judge b)).availablePrompts = s.availablePrompts := by
        simp [step, hend', handleResult, apply_ite]
      have hstep_us : (step s (.judge b)).usedPrompts =
          s.usedPrompts ++ [some s.availablePrompts[s.currentPromptIndex]] := by
        simp [step, hend', handleResult, apply_ite, hp]
      have hstep_rs : (step s (.judge b)).results =
          s.results ++ [⟨some s.availablePrompts[s.currentPromptIndex], b⟩] := by
        simp [step, hend', handleResult, apply_ite, hp]
      have hstep_lo : (step s (.judge b)).isLoadingMore = s.isLoadingMore := by
        simp [step, hend', handleResult, apply_ite]
      have hstep_ou : (step s (.judge b)).outstanding = s.outstanding := by
        simp [step, hend', handleResult, apply_ite]
      have hstep_ix : (step s (.judge b)).currentPromptIndex = s.currentPromptIndex ∨
          (step s (.judge b)).currentPromptIndex = s.currentPromptIndex + 1 := by
        by_cases hh : s.availablePrompts.length ≤ s.currentPromptIndex + 1 ∧
            s.isLoadingMore = true
        · left; simp [step, hend', handleResult, hh]
        · right; simp [step, hend', handleResult, hh]
      refine ⟨?_, ?_, ?_, ?_, ?_, ?_⟩
      · rw [hstep_av]; exact hnd
      · rw [hstep_us, hstep_av, List.length_append]
        simp only [List.length_singleton]
        rw [htake, List.map_append, ← hused]
        rfl
      · rw [hstep_us, hstep_av, List.length_append]
        simp only [List.length_singleton]
        omega
      · rw [hstep_rs, hstep_us, List.map_append, hres]
        rfl
      · rw [hstep_us, List.length_append]
        simp only [List.length_singleton]
        rcases hstep_ix with h | h
        · right; omega
        · left; omega
      · rw [hstep_ou, hstep_lo]; exact hout

/-- The supply invariant holds along any admissible trace. -/
theorem supplyInv_run : ∀ (evs : List Event) (s : RoundState),
    SupplyInv s → AdmissibleTrace s evs → SupplyInv (run s evs) := by
  intro evs
  induction evs with
  | nil => intro s h _; exact h
  | cons e t ih =>
    intro s h hT
    cases hT with
    | cons hA hT' =>
      have hr : run s (e :: t) = run (step s e) t := by simp [run]
      rw [hr]
      exact ih (step s e) (supplyInv_step s e h hA) hT'

/-- The ghost in-flight counter always matches the loading flag: every event,
with no admissibility restriction whatsoever, preserves the correspondence. -/
theorem outstandingInv_step (s : RoundState) (e : Event)
    (h : s.outstanding = (if s.isLoadingMore then 1 else 0)) :
    (step s e).outstanding = (if (step s e).isLoadingMore then 1 else 0) := by
  by_cases hend : s.ended = true
  · rw [show step s e = s from by simp [step, hend]]
    exact h
  · have hend' : s.ended = false := by simpa using hend
    cases e with
    | judge b =>
      have hou : (step s (.judge b)).outstanding = s.outstanding := by
        simp [step, hend', handleResult, apply_ite]
      have hlo : (step s (.judge b)).isLoadingMore = s.isLoadingMore := by
        simp [step, hend', handleResult, apply_ite]
      rw [hou, hlo]
      exact h
    | triggerCheck =>
      by_cases hc : s.availablePrompts.length ≤ s.currentPromptIndex + 10 ∧
          s.isLoadingMore = false
      · rw [show step s .triggerCheck = startFetch s from by
          simp [step, hend', checkFetchMore, hc]]
        simp [startFetch, h, hc.2]
      · rw [show step s .triggerCheck = s from by
          simp [step, hend', checkFetchMore, hc]]
        exact h
    | fetchOk content js =>
      by_cases hl : s.isLoadingMore = true
      · rw [show step s (.fetchOk content js) = fetchMoreSuccess s content js from by
          simp [step, hend', hl]]
        simp [fetchMoreSuccess, h, hl]
      · rw [show step s (.fetchOk content js) = s from by simp [step, hend', hl]]
        exact h
    | fetchFail =>
      by_cases hl : s.isLoadingMore = true
      · rw [show step s .fetchFail = fetchMoreFailure s from by simp [step, hend', hl]]
        simp [fetchMoreFailure, h, hl]
      · rw [show step s .fetchFail = s from by simp [step, hend', hl]]
        exact h
    | tick =>
      have hou : (step s .tick).outstanding = s.outstanding := by
        simp [step, hend', clockTick, apply_ite]
      have hlo : (step s .tick).isLoadingMore = s.isLoadingMore := by
        simp [step, hend', clockTick, apply_ite]
      rw [hou, hlo]
      exact h

/-- Along every trace -- admissible or not -- the in-flight counter matches
the loading flag. -/
theorem outstandingInv_run : ∀ (evs : List Event) (s : RoundState),
    s.outstanding = (if s.isLoadingMore then 1 else 0) →
    (run s evs).outstanding = (if (run s evs).isLoadingMore then 1 else 0) := by
  intro evs
  induction evs with
  | nil => intro s h; exact h
  | cons e t ih =>
    intro s h
    have hr : run s (e :: t) = run (step s e) t := by simp [run]
    rw [hr]
    exact ih (step s e) (outstandingInv_step s e h)

/-- C2 (amended). At most one replenishment is in flight at all times: along
*every* trace from a fresh round, with no side condition, the in-flight
counter never exceeds one. The further invariants -- every shown prompt
appears in `usedPrompts` exactly once, the unconsumed part of
`availablePrompts` never contains a used prompt, and no prompt string appears
twice in the Judgment Result list -- hold provided the initial prompts are
duplicate-free, every replenishment batch is duplicate-free and disjoint from
the prompts already queued, and every judgment is submitted only while the
cursor points at a prompt not yet used (the in-flight hold of `handleResult`
can otherwise leave the cursor on an already-judged prompt, whose
re-judgment breaks exactly-once, as the counterexample shows). -/
theorem supply_invariants (cat : Category) (d : ℚ) (ps : List String)
    (evs : List Event) :
    (run (initState cat d ps) evs).outstanding ≤ 1 ∧
    (ps.Nodup → AdmissibleTrace (initState cat d ps) evs →
      (run (initState cat d ps) evs).usedPrompts.Nodup ∧
      (∀ p ∈ (run (initState cat d ps) evs).availablePrompts.drop
          (run (initState cat d ps) evs).usedPrompts.length,
        (some p) ∉ (run (initState cat d ps) evs).usedPrompts) ∧
      ((run (initState cat d ps) evs).results.map (fun r => r.prompt)).Nodup) := by
  constructor
  · have hout := outstandingInv_run evs (initState cat d ps) (by simp [initState])
    rw [hout]
    split <;> omega
  · intro hnd hT
    obtain ⟨hnd', hused, hlen, hres, _, _⟩ :=
      supplyInv_run evs _ (supplyInv_init cat d ps hnd) hT
    set s := run (initState cat d ps) evs
    have hundup : s.usedPrompts.Nodup := by
      rw [hused]
      exact ((List.take_sublist _ _).nodup hnd').map (Option.some_injective _)
    refine ⟨hundup, ?_, ?_⟩
    · intro p hpd hpu
      rw [hused] at hpu
      obtain ⟨q, hq, hqe⟩ := List.mem_map.mp hpu
      obtain rfl : q = p := Option.some_injective _ hqe
      have hsplit := List.take_append_drop s.usedPrompts.length s.availablePrompts
      have hnodup2 : (s.availablePrompts.take s.usedPrompts.length ++
          s.availablePrompts.drop s.usedPrompts.length).Nodup := by
        rw [hsplit]; exact hnd'
      exact (List.nodup_append.mp hnodup2).2.2 hq hpd
    · rw [hres]; exact hundup

/-- Witness for C2 (amended): the unconditional in-flight bound on the
counterexample's own (inadmissible) double-judgment trace, and the
conditional invariants on a two-prompt round with one admissible judgment. -/
theorem supply_invariants_witness :
    (run (initState witCat 1 ["a"]) [.triggerCheck, .judge true, .judge false]).outstanding
      ≤ 1 ∧
    (["a", "b"] : List String).Nodup ∧
    AdmissibleTrace (initState witCat 1 ["a", "b"]) [Event.judge true] ∧
    (run (initState witCat 1 ["a", "b"]) [Event.judge true]).usedPrompts.Nodup := by
  have hT : AdmissibleTrace (initState witCat 1 ["a", "b"]) [Event.judge true] := by
    refine AdmissibleTrace.cons ?_ (AdmissibleTrace.nil _)
    refine ⟨by decide, ?_⟩
    intro p hp
    simp [initState]
  exact ⟨(supply_invariants witCat 1 ["a"] [.triggerCheck, .judge true, .judge false]).1,
    by decide, hT,
    ((supply_invariants witCat 1 ["a", "b"] [Event.judge true]).2 (by decide) hT).1⟩

theorem shuffleArray_length {α : Type} (l : List α) (js : List Nat) :
    (shuffleArray l js).length = l.length :=
  (fyLoop_perm _ l js).length_eq

/-- The `startGame` loop over custom-free categories never throws and yields
the concatenation of the sampled contributions. -/
theorem startGameLoop_no_custom (env : SetupEnv) (quota : Nat) :
    ∀ (l : List Category) (idx : Nat), (∀ c ∈ l, c.id ≠ "custom") →
    startGameLoop env quota l idx =
      .ok (pureLoopPrompts env quota l idx, pureLoopMap env quota l idx) := by
  intro l
  induction l with
  | nil => intro idx _; rfl
  | cons cat rest ih =>
    intro idx h
    have hcat : cat.id ≠ "custom" := h cat (by simp)
    have hrest : ∀ c ∈ rest, c.id ≠ "custom" := fun c hc => h c (by simp [hc])
    simp [startGameLoop, categoryPromptsFor, hcat, ih (idx + 1) hrest,
      pureLoopPrompts, pureLoopMap]

/-- With a custom category last whose generator call succeeds with null
content, the loop yields exactly the other categories' contributions. -/
theorem startGameLoop_custom_ok_none (env : SetupEnv) (quota : Nat) (cust : Category)
    (hcust : cust.id = "custom") (honline : env.online = true) :
    ∀ (others : List Category) (idx : Nat), (∀ c ∈ others, c.id ≠ "custom") →
    env.gen cust.prompt quota = .ok none →
    startGameLoop env quota (others ++ [cust]) idx =
      .ok (pureLoopPrompts env quota others idx, pureLoopMap env quota others idx) := by
  intro others
  induction others with
  | nil =>
    intro idx _ hgen
    simp [startGameLoop, categoryPromptsFor, hcust, honline, hgen, parseGenContent,
      pureLoopPrompts, pureLoopMap]
  | cons cat rest ih =>
    intro idx h hgen
    have hcat : cat.id ≠ "custom" := h cat (by simp)
    have hrest : ∀ c ∈ rest, c.id ≠ "custom" := fun c hc => h c (by simp [hc])
    simp [startGameLoop, categoryPromptsFor, hcat, ih (idx + 1) hrest hgen,
      pureLoopPrompts, pureLoopMap]

/-- A throwing generator call for a custom category aborts the whole loop. -/
theorem startGameLoop_custom_error (env : SetupEnv) (quota : Nat) (cust : Category)
    (hcust : cust.id = "custom") (honline : env.online = true) :
    ∀ (others rest2 : List Category) (idx : Nat), (∀ c ∈ others, c.id ≠ "custom") →
    env.gen cust.prompt quota = .error () →
    startGameLoop env quota (others ++ cust :: rest2) idx = .error () := by
  intro others
  induction others with
  | nil =>
    intro rest2 idx _ hgen
    simp [startGameLoop, categoryPromptsFor, hcust, honline, hgen]
  | cons cat rest ih =>
    intro rest2 idx h hgen
    have hcat : cat.id ≠ "custom" := h cat (by simp)
    have hrest : ∀ c ∈ rest, c.id ≠ "custom" := fun c hc => h c (by simp [hc])
    simp [startGameLoop, categoryPromptsFor, hcat, ih rest2 (idx + 1) hrest hgen]

theorem pureLoopPrompts_length (env : SetupEnv) (quota : Nat) :
    ∀ (l : List Category) (idx : Nat),
    (pureLoopPrompts env quota l idx).length =
      (l.map (fun c => min quota (env.pools c.id).length)).sum := by
  intro l
  induction l with
  | nil => intro idx; rfl
  | cons cat rest ih =>
    intro idx
    simp [pureLoopPrompts, getRandomOptionsForCategory, List.length_take,
      shuffleArray_length, ih (idx + 1)]

/-- When every pool covers the quota, the loop realizes exactly
`quota` prompts per category. -/
theorem pureLoopPrompts_length_full (env : SetupEnv) (quota : Nat) :
    ∀ (l : List Category) (idx : Nat),
    (∀ c ∈ l, quota ≤ (env.pools c.id).length) →
    (pureLoopPrompts env quota l idx).length = l.length * quota := by
  intro l
  induction l with
  | nil => intro idx _; simp [pureLoopPrompts]
  | cons cat rest ih =>
    intro idx h
    have hcat : quota ≤ (env.pools cat.id).length := h cat (by simp)
    have hrest : ∀ c ∈ rest, quota ≤ (env.pools c.id).length :=
      fun c hc => h c (by simp [hc])
    simp [pureLoopPrompts, getRandomOptionsForCategory, List.length_take,
      shuffleArray_length, ih (idx + 1) hrest, Nat.min_eq_left hcat]
    ring

/-- C6 (amended). With the network up and a custom category among the
selection: if its generator call returns a malformed (null) response, the
category contributes an empty list and the round still starts with exactly
the other categories' prompts; but if the call throws, the exception is
caught at `startGame`'s top level (none escapes setup) and the round does
not start at all -- the app stays on the setup screen. -/
theorem setup_generator_failure (env : SetupEnv) (d : ℚ) (others : List Category)
    (cust : Category) (honline : env.online = true)
    (hoth : ∀ c ∈ others, c.id ≠ "custom") (hcust : cust.id = "custom") :
    (env.gen cust.prompt (promptsPerCategory (others ++ [cust])) = .ok none →
      startGame env d (others ++ [cust]) =
        .started
          (shuffleArray
            (pureLoopPrompts env (promptsPerCategory (others ++ [cust])) others 0)
            env.finalShuffle)
          (pureLoopMap env (promptsPerCategory (others ++ [cust])) others 0)
          d (others ++ [cust])) ∧
    (env.gen cust.prompt (promptsPerCategory (others ++ [cust])) = .error () →
      startGame env d (others ++ [cust]) = .aborted) := by
  have hmisc : ¬((others ++ [cust]).length = 1 ∧
      ((others ++ [cust]).head?.map Category.id) = some "misc") := by
    rintro ⟨h1, h2⟩
    cases others with
    | nil => simp [hcust] at h2
    | cons o os => simp at h1
  constructor
  · intro hgen
    simp only [startGame, if_neg hmisc]
    rw [startGameLoop_custom_ok_none env _ cust hcust honline others 0 hoth hgen]
  · intro hgen
    have hloop := startGameLoop_custom_error env (promptsPerCategory (others ++ [cust]))
      cust hcust honline others [] 0 hoth hgen
    simp only [startGame, if_neg hmisc]
    rw [show others ++ cust :: [] = others ++ [cust] from rfl] at hloop
    rw [hloop]

/-- Witness for C6 (amended), null-content branch: the custom category
degrades to nothing and the round starts with the animal prompts alone. -/
theorem setup_generator_failure_witness :
    envOkNone.online = true ∧ customCat.id = "custom" ∧
    envOkNone.gen customCat.prompt (promptsPerCategory [witCat, customCat]) = .ok none ∧
    startGame envOkNone 1 [witCat, customCat] =
      .started
        (shuffleArray
          (pureLoopPrompts envOkNone (promptsPerCategory [witCat, customCat]) [witCat] 0)
          envOkNone.finalShuffle)
        (pureLoopMap envOkNone (promptsPerCategory [witCat, customCat]) [witCat] 0)
        1 [witCat, customCat] :=
  ⟨rfl, rfl, rfl,
    (setup_generator_failure envOkNone 1 [witCat] customCat rfl (by decide) rfl).1 rfl⟩

/-- C6 counterexample. A throwing generator call during setup does not
degrade to an empty contribution: despite `witCat`'s 26-item pool having
supplied prompts, the whole setup aborts and no round starts. -/
theorem setup_generator_failure_cex :
    (envErr.pools witCat.id).length = 26 ∧
    startGame envErr 1 [witCat, customCat] = SetupOutcome.aborted := by
  constructor
  · decide
  · decide

/-- C7 (amended). The `misc` sentinel expands to every catalog category
except `custom` and `misc`; but the per-category quota is computed from the
categories selected *before* the expansion, so each expanded category
receives the full `ceil(50/1) = 50` (an equal share, yet not
`ceil(50 / number of sampled categories)`). For a non-`misc` selection the
quota is `ceil(50 / number of selected categories)` and, when every pool
covers the quota, the realized total is `count * quota >= 50`. -/
theorem setup_quota (env : SetupEnv) (d : ℚ) (cats : List Category) :
    (∀ m, cats = [m] → m.id = "misc" →
      startGame env d cats =
        .started
          (shuffleArray
            (pureLoopPrompts env 50
              (env.allCategories.filter (fun c => c.id != "custom" && c.id != "misc")) 0)
            env.finalShuffle)
          (pureLoopMap env 50
            (env.allCategories.filter (fun c => c.id != "custom" && c.id != "misc")) 0)
          d (env.allCategories.filter (fun c => c.id != "custom" && c.id != "misc")) ∧
      (pureLoopPrompts env 50
          (env.allCategories.filter (fun c => c.id != "custom" && c.id != "misc")) 0).length =
        ((env.allCategories.filter (fun c => c.id != "custom" && c.id != "misc")).map
          (fun c => min 50 (env.pools c.id).length)).sum) ∧
    (¬(cats.length = 1 ∧ (cats.head?.map Category.id) = some "misc") →
      (∀ c ∈ cats, c.id ≠ "custom") →
      (∀ c ∈ cats, promptsPerCategory cats ≤ (env.pools c.id).length) →
      0 < cats.length →
      startGame env d cats =
        .started
          (shuffleArray (pureLoopPrompts env (promptsPerCategory cats) cats 0)
            env.finalShuffle)
          (pureLoopMap env (promptsPerCategory cats) cats 0) d cats ∧
      (pureLoopPrompts env (promptsPerCategory cats) cats 0).length =
        cats.length * promptsPerCategory cats ∧
      50 ≤ cats.length * promptsPerCategory cats) := by
  constructor
  · intro m hm hmisc
    subst hm
    have hfil : ∀ c ∈ env.allCategories.filter
        (fun c => c.id != "custom" && c.id != "misc"), c.id ≠ "custom" := by
      intro c hc
      have hp := List.of_mem_filter hc
      simp only [Bool.and_eq_true, bne_iff_ne] at hp
      exact hp.1
    have hq : promptsPerCategory [m] = 50 := by
      simp [promptsPerCategory]
    have hcond : ([m] : List Category).length = 1 ∧
        (([m] : List Category).head?.map Category.id) = some "misc" := by
      simp [hmisc]
    constructor
    · simp only [startGame, if_pos hcond, hq]
      rw [startGameLoop_no_custom env 50 _ 0 hfil]
    · exact pureLoopPrompts_length env 50 _ 0
  · intro hne hnc hpool hlen
    refine ⟨?_, ?_, ?_⟩
    · simp only [startGame, if_neg hne]
      rw [startGameLoop_no_custom env _ cats 0 hnc]
    · exact pureLoopPrompts_length_full env _ cats 0 hpool
    · have hmod := Nat.div_add_mod (50 + cats.length - 1) cats.length
      have hlt : (50 + cats.length - 1) % cats.length < cats.length :=
        Nat.mod_lt _ hlen
      unfold promptsPerCategory
      omega

/-- Witness for C7 (amended): the sentinel-only selection on the concrete
catalog. -/
theorem setup_quota_witness :
    miscCat.id = "misc" ∧
    startGame envErr 1 [miscCat] =
      .started
        (shuffleArray
          (pureLoopPrompts envErr 50
            (envErr.allCategories.filter (fun c => c.id != "custom" && c.id != "misc")) 0)
          envErr.finalShuffle)
        (pureLoopMap envErr 50
          (envErr.allCategories.filter (fun c => c.id != "custom" && c.id != "misc")) 0)
        1 (envErr.allCategories.filter (fun c => c.id != "custom" && c.id != "misc")) :=
  ⟨rfl, ((setup_quota envErr 1 [miscCat]).1 miscCat rfl rfl).1⟩

/-- C7 counterexample. With the sentinel selected on a catalog of two canned
categories, the spec's quota would be `ceil(50/2) = 25` so the realized total
could not exceed 25 from `witCat`'s pool plus 0 from `moviesCat`'s empty one;
the code instead samples each expanded category with quota 50 and realizes 26
prompts -- the per-category quota is not `ceil(50 / number of sampled
categories)`. -/
theorem setup_quota_cex :
    specQuota 50 2 = 25 ∧
    (envErr.allCategories.filter (fun c => c.id != "custom" && c.id != "misc")).length = 2 ∧
    (envErr.pools witCat.id).length = 26 ∧
    (envErr.pools moviesCat.id).length = 0 ∧
    setupPromptCount (startGame envErr 1 [miscCat]) = some 26 ∧ 25 < 26 := by
  refine ⟨by decide, by decide, by decide, by decide, by decide, by decide⟩

theorem listSwap_getElem?_left {α : Type} (l : List α) (i j : Nat)
    (hi : i < l.length) (hj : j < l.length) : (listSwap l i j)[i]? = l[j]? := by
  unfold listSwap
  rw [List.getElem?_eq_getElem hi, List.getElem?_eq_getElem hj]
  by_cases hij : i = j
  · subst hij
    simp [List.getElem?_set, hi]
  · simp [List.getElem?_set, Ne.symm hij, hi, hij]

theorem listSwap_getElem?_untouched {α : Type} (l : List α) (i j k : Nat)
    (hk1 : k ≠ i) (hk2 : k ≠ j) : (listSwap l i j)[k]? = l[k]? := by
  unfold listSwap
  cases hx : l[i]? with
  | none => rfl
  | some x =>
    cases hy : l[j]? with
    | none => rfl
    | some y =>
      simp [List.getElem?_set, Ne.symm hk1, Ne.symm hk2, hk1.symm, hk2.symm]

/-- Positions above the loop counter are never touched by valid draws. -/
theorem fyLoop_untouched {α : Type} : ∀ (i : Nat) (l : List α) (js : List Nat),
    ValidChoices i js → ∀ k, i < k → (fyLoop l i js)[k]? = l[k]? := by
  intro i
  induction i with
  | zero => intro l js _ k _; simp [fyLoop]
  | succ m ih =>
    intro l js hv k hk
    cases js with
    | nil => exact absurd hv (by simp [ValidChoices])
    | cons j t =>
      obtain ⟨hj, hv'⟩ := hv
      rw [show fyLoop l (m + 1) (j :: t) = fyLoop (listSwap l (m + 1) j) m t from rfl]
      rw [ih _ t hv' k (by omega)]
      exact listSwap_getElem?_untouched l (m + 1) j k (by omega) (by omega)

/-- On a duplicate-free list, distinct valid draw sequences produce distinct
outputs. -/
theorem fyLoop_inj {α : Type} : ∀ (i : Nat) (l : List α) (js js' : List Nat),
    l.Nodup → i < l.length → ValidChoices i js → ValidChoices i js' →
    fyLoop l i js = fyLoop l i js' → js = js' := by
  intro i
  induction i with
  | zero =>
    intro l js js' _ _ hv hv' _
    simp only [ValidChoices] at hv hv'
    rw [hv, hv']
  | succ m ih =>
    intro l js js' hnd hlt hv hv' heq
    cases js with
    | nil => exact absurd hv (by simp [ValidChoices])
    | cons j t =>
      cases js' with
      | nil => exact absurd hv' (by simp [ValidChoices])
      | cons j' t' =>
        obtain ⟨hj, hvt⟩ := hv
        obtain ⟨hj', hvt'⟩ := hv'
        have hjl : j < l.length := by omega
        have hj'l : j' < l.length := by omega
        have e1 : (fyLoop l (m + 1) (j :: t))[m + 1]? = l[j]? := by
          rw [show fyLoop l (m + 1) (j :: t) = fyLoop (listSwap l (m + 1) j) m t from rfl,
            fyLoop_untouched m _ t hvt (m + 1) (Nat.lt_succ_self m),
            listSwap_getElem?_left l (m + 1) j hlt hjl]
        have e2 : (fyLoop l (m + 1) (j' :: t'))[m + 1]? = l[j']? := by
          rw [show fyLoop l (m + 1) (j' :: t') = fyLoop (listSwap l (m + 1) j') m t' from rfl,
            fyLoop_untouched m _ t' hvt' (m + 1) (Nat.lt_succ_self m),
            listSwap_getElem?_left l (m + 1) j' hlt hj'l]
        have hgg : l[j]? = l[j']? := by rw [← e1, ← e2, heq]
        have hjj : j = j' := List.getElem?_inj hjl hnd hgg
        subst hjj
        have heq' : fyLoop (listSwap l (m + 1) j) m t =
            fyLoop (listSwap l (m + 1) j) m t' := heq
        have hnd2 : (listSwap l (m + 1) j).Nodup :=
          ((listSwap_perm l (m + 1) j).nodup_iff).mpr hnd
        have hlt2 : m < (listSwap l (m + 1) j).length := by
          rw [(listSwap_perm l (m + 1) j).length_eq]
          omega
        rw [ih _ t t' hnd2 hlt2 hvt hvt' heq']

/-- On a duplicate-free list, every permutation that agrees with the input
above the loop counter is reached by some valid draw sequence. -/
theorem fyLoop_surj {α : Type} [DecidableEq α] : ∀ (i : Nat) (l l' : List α),
    l.Nodup → l'.Perm l → i < l.length → (∀ k, i < k → l'[k]? = l[k]?) →
    ∃ js, ValidChoices i js ∧ fyLoop l i js = l' := by
  intro i
  induction i with
  | zero =>
    intro l l' hnd hp hlt hag
    refine ⟨[], rfl, ?_⟩
    cases l with
    | nil => simp at hlt
    | cons a t =>
      cases l' with
      | nil =>
        have := hp.length_eq
        simp at this
      | cons a' t' =>
        have ht : t' = t := by
          apply List.ext_getElem?
          intro k
          have := hag (k + 1) (by omega)
          simpa using this
        subst ht
        have hmem : a' ∈ a :: t' := (hp.mem_iff).mp (List.mem_cons_self a' t')
        have hnd' : (a' :: t').Nodup := (hp.nodup_iff).mpr hnd
        rcases List.mem_cons.mp hmem with h | h
        · rw [show fyLoop (a :: t') 0 [] = a :: t' from rfl, h]
        · exact absurd h (List.nodup_cons.mp hnd').1
  | succ m ih =>
    intro l l' hnd hp hlt hag
    have hlen : l'.length = l.length := hp.length_eq
    have hm1 : m + 1 < l'.length := by omega
    obtain ⟨y, hy⟩ : ∃ y, l'[m + 1]? = some y := ⟨_, List.getElem?_eq_getElem hm1⟩
    have hymem : y ∈ l := (hp.mem_iff).mp (List.getElem?_mem hy)
    have hjlt : List.indexOf y l < l.length := List.indexOf_lt_length.mpr hymem
    have hjget : l[List.indexOf y l]? = some y := by
      rw [List.getElem?_eq_getElem hjlt, List.getElem_indexOf hjlt]
    have hnd' : l'.Nodup := (hp.nodup_iff).mpr hnd
    have hjle : List.indexOf y l ≤ m + 1 := by
      by_contra hgt
      push_neg at hgt
      have hag' : l'[List.indexOf y l]? = l[List.indexOf y l]? := hag _ (by omega)
      have hsame : l'[List.indexOf y l]? = l'[m + 1]? := by
        rw [hag', hjget, hy]
      have : List.indexOf y l = m + 1 :=
        List.getElem?_inj (by omega) hnd' hsame
      omega
    have hperm2 : (listSwap l (m + 1) (List.indexOf y l)).Perm l :=
      listSwap_perm l (m + 1) (List.indexOf y l)
    have hnd2 : (listSwap l (m + 1) (List.indexOf y l)).Nodup :=
      (hperm2.nodup_iff).mpr hnd
    have hlt2 : m < (listSwap l (m + 1) (List.indexOf y l)).length := by
      rw [hperm2.length_eq]
      omega
    have hag2 : ∀ k, m < k →
        l'[k]? = (listSwap l (m + 1) (List.indexOf y l))[k]? := by
      intro k hk
      by_cases hke : k = m + 1
      · subst hke
        rw [listSwap_getElem?_left l (m + 1) (List.indexOf y l) hlt hjlt, hy, hjget]
      · have hk2 : m + 1 < k := by omega
        rw [listSwap_getElem?_untouched l (m + 1) (List.indexOf y l) k (by omega)
          (by omega)]
        exact hag k hk2
    obtain ⟨t, hvt, hft⟩ := ih (listSwap l (m + 1) (List.indexOf y l)) l' hnd2
      (hp.trans hperm2.symm) hlt2 hag2
    exact ⟨List.indexOf y l :: t, ⟨hjle, hvt⟩, hft⟩

theorem mem_enumChoices : ∀ (i : Nat) (js : List Nat),
    js ∈ enumChoices i ↔ ValidChoices i js := by
  intro i
  induction i with
  | zero =>
    intro js
    simp [enumChoices, ValidChoices]
  | succ m ih =>
    intro js
    simp only [enumChoices, List.mem_flatMap, List.mem_map, List.mem_range]
    constructor
    · rintro ⟨j, hj, t, ht, rfl⟩
      exact ⟨by omega, (ih t).mp ht⟩
    · intro hv
      cases js with
      | nil => exact absurd hv (by simp [ValidChoices])
      | cons j t =>
        obtain ⟨hj, hvt⟩ := hv
        exact ⟨j, by omega, t, (ih t).mpr hvt, rfl⟩

theorem enumChoices_length : ∀ i : Nat,
    (enumChoices i).length = Nat.factorial (i + 1) := by
  intro i
  induction i with
  | zero => rfl
  | succ m ih =>
    rw [show enumChoices (m + 1) =
      (List.range (m + 2)).flatMap (fun j => (enumChoices m).map (fun t => j :: t))
      from rfl]
    rw [List.length_flatMap]
    have hconst : List.map (List.length ∘ fun j => (enumChoices m).map (fun t => j :: t))
        (List.range (m + 2)) =
        List.replicate (m + 2) (Nat.factorial (m + 1)) := by
      rw [show (List.length ∘ fun j => (enumChoices m).map (fun t => j :: t)) =
        fun _ : Nat => (enumChoices m).length from by
          funext j
          simp]
      rw [ih, List.map_const', List.length_range]
    rw [hconst, List.sum_replicate, smul_eq_mul]
    rw [show Nat.factorial (m + 1 + 1) = (m + 2) * Nat.factorial (m + 1) from rfl]

theorem enumChoices_nodup : ∀ i : Nat, (enumChoices i).Nodup := by
  intro i
  induction i with
  | zero => simp [enumChoices]
  | succ m ih =>
    rw [show enumChoices (m + 1) =
      (List.range (m + 2)).flatMap (fun j => (enumChoices m).map (fun t => j :: t))
      from rfl]
    refine List.nodup_flatMap.mpr ⟨?_, ?_⟩
    · intro j _
      exact ih.map List.cons_injective
    · have h := List.pairwise_lt_range (m + 2)
      refine h.imp ?_
      intro a b hab x hxa hxb
      obtain ⟨t1, _, rfl⟩ := List.mem_map.mp hxa
      obtain ⟨t2, _, heq⟩ := List.mem_map.mp hxb
      have hba : b = a := ((List.cons.injEq b t2 a t1).mp heq).1
      omega

theorem listSwap_map {α β : Type} (f : α → β) (l : List α) (i j : Nat) :
    listSwap (l.map f) i j = (listSwap l i j).map f := by
  unfold listSwap
  cases hx : l[i]? with
  | none => simp [List.getElem?_map, hx]
  | some x =>
    cases hy : l[j]? with
    | none => simp [List.getElem?_map, hx, hy]
    | some y => simp [List.getElem?_map, hx, hy, List.map_set]

theorem fyLoop_map {α β : Type} (f : α → β) : ∀ (i : Nat) (l : List α) (js : List Nat),
    fyLoop (l.map f) i js = (fyLoop l i js).map f := by
  intro i
  induction i with
  | zero => intro l js; simp [fyLoop]
  | succ m ih =>
    intro l js
    cases js with
    | nil => simp [fyLoop]
    | cons j t =>
      rw [show fyLoop (l.map f) (m + 1) (j :: t) =
        fyLoop (listSwap (l.map f) (m + 1) j) m t from rfl]
      rw [listSwap_map, ih]
      rfl

theorem map_getD_range {α : Type} (l : List α) (d : α) :
    (List.range l.length).map (fun k => l.getD k d) = l := by
  apply List.ext_getElem
  · simp
  · intro i h1 h2
    simp only [List.getElem_map, List.getElem_range]
    exact List.getD_eq_getElem l d h2

/-- `shuffleArray` acts purely on positions: shuffling any list is applying
the position shuffle of `range length` and reading the elements off. -/
theorem shuffleArray_factor {α : Type} (m : List α) (d : α) (js : List Nat) :
    shuffleArray m js =
      (shuffleArray (List.range m.length) js).map (fun k => m.getD k d) := by
  have h1 : shuffleArray m js =
      shuffleArray ((List.range m.length).map (fun k => m.getD k d)) js := by
    rw [map_getD_range]
  rw [h1]
  unfold shuffleArray
  rw [List.length_map, List.length_range, fyLoop_map]

/-- C9. The shuffle is a fair Fisher–Yates shuffle. The loop's draw space for
a list of length `n` is exactly `enumChoices (n - 1)`: a duplicate-free list
of `n!` draw sequences, each equally likely under a uniform random source
(each draw is `Math.floor(Math.random() * (i + 1))`, uniform on `0..i`,
independent across iterations), and for every permutation `l'` of the
positions `range n` exactly one draw sequence produces `l'` -- so every
permutation comes out with probability `1/n!`. The last conjunct transports
this to an arbitrary input list: shuffling any list applies the fairly
shuffled position permutation and reads the elements off, which is exactly
Fisher–Yates and not a sort with a random comparator. -/
theorem shuffleArray_fair (n : Nat) (l' : List Nat) (hp : l'.Perm (List.range n)) :
    (∃! js, js ∈ enumChoices (n - 1) ∧ shuffleArray (List.range n) js = l') ∧
    (enumChoices (n - 1)).length = Nat.factorial n ∧
    (enumChoices (n - 1)).Nodup ∧
    (∀ (α : Type) (m : List α) (d : α) (js : List Nat),
      shuffleArray m js =
        (shuffleArray (List.range m.length) js).map (fun k => m.getD k d)) := by
  refine ⟨?_, ?_, enumChoices_nodup _, fun α m d js => shuffleArray_factor m d js⟩
  · cases n with
    | zero =>
      have hl : l' = [] := hp.eq_nil
      refine ⟨[], ⟨by simp [enumChoices], by rw [hl]; rfl⟩, ?_⟩
      rintro js ⟨hjs, _⟩
      simpa [enumChoices] using hjs
    | succ k =>
      have hnd := List.nodup_range (k + 1)
      have hlt : k < (List.range (k + 1)).length := by simp
      have hag : ∀ j, k < j → l'[j]? = (List.range (k + 1))[j]? := by
        intro j hj
        rw [List.getElem?_eq_none, List.getElem?_eq_none]
        · simp
          omega
        · rw [hp.length_eq]
          simp
          omega
      have hsh : ∀ js0 : List Nat, shuffleArray (List.range (k + 1)) js0 =
          fyLoop (List.range (k + 1)) k js0 := by
        intro js0
        unfold shuffleArray
        rw [show (List.range (k + 1)).length - 1 = k by simp]
      obtain ⟨js, hv, hf⟩ := fyLoop_surj k (List.range (k + 1)) l' hnd hp hlt hag
      refine ⟨js, ⟨(mem_enumChoices _ _).mpr hv, by rw [hsh]; exact hf⟩, ?_⟩
      rintro js' ⟨hm', hf'⟩
      have hv' := (mem_enumChoices _ _).mp hm'
      refine fyLoop_inj k (List.range (k + 1)) js' js hnd hlt hv' hv ?_
      rw [← hsh, ← hsh, hf']
      rw [hsh]
      exact hf.symm
  · cases n with
    | zero => rfl
    | succ k => simpa using enumChoices_length k

/-- Witness for C9 at `n = 2`: the transposition is produced by exactly one
draw sequence. -/
theorem shuffleArray_fair_witness :
    ([1, 0] : List Nat).Perm (List.range 2) ∧
    (∃! js, js ∈ enumChoices (2 - 1) ∧ shuffleArray (List.range 2) js = [1, 0]) :=
  ⟨by decide, (shuffleArray_fair 2 [1, 0] (by decide)).1⟩

end Charader
